import Mathlib

/-!
Shallow embedding of the automaton core of the `typestates-macro` repository.

Part 1 embeds `typestate-automata/src/lib.rs`:
`DeterministicFiniteAutomata` holds hash sets of states, initial states,
final states, a flat hash set of transitions, and a `petgraph.DiGraphMap`
adjacency used for traversal.  Hash sets are modelled as duplicate-free
lists where only membership matters; `DiGraphMap` is modelled as a node
list plus an edge list holding at most one labelled edge per
(source, destination) pair (`add_edge` replaces the label of an existing
edge).  The `State<T>` and `Symbol<T>` wrappers delegate equality, order
and hashing to the wrapped value, so states and symbols are embedded by
their carrier types directly.

`reachable` is the breadth-first loop of the source: a work queue is
popped from the front; every outgoing neighbour not yet in `discovered`
is inserted into `discovered` and pushed to the back.  The Lean embedding
runs the same loop on explicit fuel; the termination theorem shows the
chosen fuel (number of stored graph edges plus one) always suffices.
-/

namespace Typestates

/-- Insertion into a hash set modelled as a list: a no-op when the element
is already present, otherwise the element is appended. -/
def hsInsert {α : Type} [DecidableEq α] (x : α) (l : List α) : List α :=
  if x ∈ l then l else l ++ [x]

/-- Membership in `hsInsert` is membership in the original list or equality
with the inserted element. -/
theorem mem_hsInsert {α : Type} [DecidableEq α] (x v : α) (l : List α) :
    x ∈ hsInsert v l ↔ x = v ∨ x ∈ l := by
  unfold hsInsert
  by_cases h : v ∈ l
  · simp only [if_pos h]
    constructor
    · exact fun hx => Or.inr hx
    · rintro (rfl | hx)
      · exact h
      · exact hx
  · simp only [if_neg h, List.mem_append, List.mem_singleton]
    tauto

/-- Embedding of `DeterministicFiniteAutomata<'dfa, S, T>`.  The first four
fields are the hash sets of the struct; `graphNodes` and `graphEdges` are
the node set and labelled edge set of the `automata : DiGraphMap` field. -/
structure DFA (S T : Type) where
  states : List S
  initial_states : List S
  final_states : List S
  transitions : List (S × S × T)
  graphNodes : List S
  graphEdges : List (S × S × T)

/-- Embedding of `DeterministicFiniteAutomata::new`. -/
def DFA.new (S T : Type) : DFA S T :=
  ⟨[], [], [], [], [], []⟩

/-- Embedding of `add_state`: inserts into the general state set and adds
the node to the graph (`automata.add_node`). -/
def DFA.add_state {S T : Type} [DecidableEq S] (a : DFA S T) (s : S) : DFA S T :=
  { a with states := hsInsert s a.states, graphNodes := hsInsert s a.graphNodes }

/-- Embedding of `add_initial_state`: inserts into the initial set, then
delegates to `add_state`. -/
def DFA.add_initial_state {S T : Type} [DecidableEq S] (a : DFA S T) (s : S) : DFA S T :=
  DFA.add_state { a with initial_states := hsInsert s a.initial_states } s

/-- Embedding of `add_final_state`: inserts into the final set, then
delegates to `add_state`. -/
def DFA.add_final_state {S T : Type} [DecidableEq S] (a : DFA S T) (s : S) : DFA S T :=
  DFA.add_state { a with final_states := hsInsert s a.final_states } s

/-- Embedding of `DiGraphMap::add_edge`: when an edge for the same
(source, destination) pair exists its label is replaced, otherwise the
edge is appended. -/
def addEdge {S T : Type} [DecidableEq S] (edges : List (S × S × T)) (src dst : S) (sym : T) :
    List (S × S × T) :=
  if edges.any (fun e => decide (e.1 = src) && decide (e.2.1 = dst)) then
    edges.map (fun e => if e.1 = src ∧ e.2.1 = dst then (src, dst, sym) else e)
  else
    edges ++ [(src, dst, sym)]

/-- Embedding of `add_transition`: inserts the triple into the flat
transition set and into the graph via `add_edge` (which also adds the two
endpoint nodes to the graph's node set). -/
def DFA.add_transition {S T : Type} [DecidableEq S] [DecidableEq T]
    (a : DFA S T) (src dst : S) (sym : T) : DFA S T :=
  { a with
    transitions := hsInsert (src, dst, sym) a.transitions,
    graphNodes := hsInsert dst (hsInsert src a.graphNodes),
    graphEdges := addEdge a.graphEdges src dst sym }

/-- Embedding of `neighbors_outgoing` on the adjacency graph: destinations
of the stored edges whose source is `s`. -/
def DFA.neighborsOutgoing {S T : Type} [DecidableEq S] (a : DFA S T) (s : S) : List S :=
  (a.graphEdges.filter (fun e => decide (e.1 = s))).map (fun e => e.2.1)

/-- Inner loop of `reachable`: fold of `if discovered.insert(n) { stack.push_back(n) }`
over the neighbour list, returning the updated discovered set and queue. -/
def discoverAll {S : Type} [DecidableEq S] :
    List S → List S → List S → List S × List S
  | [], disc, queue => (disc, queue)
  | n :: ns, disc, queue =>
    if n ∈ disc then discoverAll ns disc queue
    else discoverAll ns (disc ++ [n]) (queue ++ [n])

/-- Fuelled breadth-first loop of `reachable`: pop the queue front, run the
neighbour discovery step, recurse.  `none` means the fuel was exhausted
with a non-empty queue (this never happens for the fuel chosen below). -/
def bfsAux {S : Type} [DecidableEq S] (adj : S → List S) :
    List S → List S → Nat → Option (List S)
  | [], disc, _ => some disc
  | _ :: _, _, 0 => none
  | s :: rest, disc, fuel + 1 =>
    let p := discoverAll (adj s) disc rest
    bfsAux adj p.2 p.1 fuel

/-- Embedding of `reachable`: the loop starts with the queue holding the
start state and an empty discovered set.  The fuel `graphEdges.length + 1`
always suffices (see the termination theorem), so `getD` never sees `none`. -/
def DFA.reachable {S T : Type} [DecidableEq S] (a : DFA S T) (s : S) : List S :=
  (bfsAux a.neighborsOutgoing [s] [] (a.graphEdges.length + 1)).getD []

/-- Embedding of `is_productive`: the intersection of the reachable set with
the final-state set is non-empty. -/
def DFA.is_productive {S T : Type} [DecidableEq S] (a : DFA S T) (s : S) : Bool :=
  (a.reachable s).any (fun x => decide (x ∈ a.final_states))

/-- Construction operations of the edge-list automaton API. -/
inductive DFAOp (S T : Type) where
  | addState (s : S)
  | addInitialState (s : S)
  | addFinalState (s : S)
  | addTransition (src dst : S) (sym : T)

/-- Apply one API operation. -/
def DFA.applyOp {S T : Type} [DecidableEq S] [DecidableEq T]
    (a : DFA S T) : DFAOp S T → DFA S T
  | .addState s => a.add_state s
  | .addInitialState s => a.add_initial_state s
  | .addFinalState s => a.add_final_state s
  | .addTransition src dst sym => a.add_transition src dst sym

/-- An automaton built from `new()` by a sequence of API calls. -/
def buildDFA {S T : Type} [DecidableEq S] [DecidableEq T] (ops : List (DFAOp S T)) : DFA S T :=
  ops.foldl DFA.applyOp (DFA.new S T)

/-- Specification of the discovery step: it appends one list `new` of fresh
states to both the discovered set and the queue; `new` is duplicate-free,
drawn from the neighbour list, disjoint from the previous discovered set,
and afterwards every neighbour is discovered. -/
theorem discoverAll_spec {S : Type} [DecidableEq S] (ns : List S) :
    ∀ disc queue : List S,
      ∃ new : List S,
        discoverAll ns disc queue = (disc ++ new, queue ++ new) ∧
        new.Nodup ∧
        (∀ x ∈ new, x ∈ ns ∧ x ∉ disc) ∧
        (∀ x ∈ ns, x ∈ disc ++ new) := by
  induction ns with
  | nil =>
    intro disc queue
    exact ⟨[], by simp [discoverAll], by simp, by simp, by simp⟩
  | cons n ns ih =>
    intro disc queue
    by_cases h : n ∈ disc
    · obtain ⟨new, h1, h2, h3, h4⟩ := ih disc queue
      refine ⟨new, ?_, h2, ?_, ?_⟩
      · simpa [discoverAll, if_pos h] using h1
      · intro x hx
        exact ⟨List.mem_cons_of_mem _ (h3 x hx).1, (h3 x hx).2⟩
      · intro x hx
        rcases List.mem_cons.mp hx with rfl | hx
        · exact List.mem_append.mpr (Or.inl h)
        · exact h4 x hx
    · obtain ⟨new, h1, h2, h3, h4⟩ := ih (disc ++ [n]) (queue ++ [n])
      refine ⟨n :: new, ?_, ?_, ?_, ?_⟩
      · have : discoverAll (n :: ns) disc queue = discoverAll ns (disc ++ [n]) (queue ++ [n]) := by
          simp [discoverAll, if_neg h]
        rw [this, h1]
        simp
      · refine List.nodup_cons.mpr ⟨?_, h2⟩
        intro hn
        exact (h3 n hn).2 (by simp)
      · intro x hx
        rcases List.mem_cons.mp hx with rfl | hx
        · exact ⟨List.mem_cons_self _ _, h⟩
        · refine ⟨List.mem_cons_of_mem _ (h3 x hx).1, ?_⟩
          intro hd
          exact (h3 x hx).2 (List.mem_append.mpr (Or.inl hd))
      · intro x hx
        rcases List.mem_cons.mp hx with rfl | hx
        · simp
        · have := h4 x hx
          simpa [List.append_assoc] using this

/-- A duplicate-free list drawn from `D` is no longer than `D.dedup`. -/
theorem nodup_length_le_dedup {S : Type} [DecidableEq S] (l D : List S)
    (hnd : l.Nodup) (hsub : ∀ x ∈ l, x ∈ D) : l.length ≤ D.dedup.length := by
  calc l.length = l.toFinset.card := (List.toFinset_card_of_nodup hnd).symm
    _ ≤ D.toFinset.card := by
        apply Finset.card_le_card
        intro x hx
        rw [List.mem_toFinset] at hx ⊢
        exact hsub x hx
    _ = D.dedup.length := List.card_toFinset D

/-- Fuel sufficiency for the breadth-first loop: when every neighbour list is
drawn from `D`, the discovered set is duplicate-free and drawn from `D`, and
the fuel covers the queue length plus the number of still-undiscovered
candidates, the loop completes. -/
theorem bfsAux_isSome {S : Type} [DecidableEq S] (adj : S → List S) (D : List S)
    (hadj : ∀ s, ∀ x ∈ adj s, x ∈ D) :
    ∀ (fuel : Nat) (queue disc : List S), disc.Nodup → (∀ x ∈ disc, x ∈ D) →
      queue.length + (D.dedup.length - disc.length) ≤ fuel →
      (bfsAux adj queue disc fuel).isSome := by
  intro fuel
  induction fuel with
  | zero =>
    intro queue disc _ _ hle
    cases queue with
    | nil => simp [bfsAux]
    | cons s rest => simp [List.length_cons] at hle
  | succ f ih =>
    intro queue disc hnd hsub hle
    cases queue with
    | nil => simp [bfsAux]
    | cons s rest =>
      obtain ⟨new, h1, h2, h3, h4⟩ := discoverAll_spec (adj s) disc rest
      have hstep : bfsAux adj (s :: rest) disc (f + 1)
          = bfsAux adj (rest ++ new) (disc ++ new) f := by
        have hdef : bfsAux adj (s :: rest) disc (f + 1)
            = bfsAux adj (discoverAll (adj s) disc rest).2 (discoverAll (adj s) disc rest).1 f :=
          rfl
        rw [hdef, h1]
      rw [hstep]
      have hnd' : (disc ++ new).Nodup :=
        List.Nodup.append hnd h2 (fun a ha hna => (h3 a hna).2 ha)
      have hsub' : ∀ x ∈ disc ++ new, x ∈ D := by
        intro x hx
        rcases List.mem_append.mp hx with hx | hx
        · exact hsub x hx
        · exact hadj s x (h3 x hx).1
      have hlen : (disc ++ new).length ≤ D.dedup.length :=
        nodup_length_le_dedup _ D hnd' hsub'
      apply ih _ _ hnd' hsub'
      simp only [List.length_append] at hlen
      simp only [List.length_append, List.length_cons] at hle ⊢
      omega

/-- Soundness invariant of the loop: when every already-discovered state
satisfies `R`, every queued state is the start or satisfies `R`, `R` holds
for direct neighbours of the start, and `R` is closed under edge steps,
then every state in the final result satisfies `R`. -/
theorem bfsAux_sound {S : Type} [DecidableEq S] (adj : S → List S) (s₀ : S) (R : S → Prop)
    (hbase : ∀ n ∈ adj s₀, R n) (hstep : ∀ x n, R x → n ∈ adj x → R n) :
    ∀ (fuel : Nat) (queue disc res : List S),
      bfsAux adj queue disc fuel = some res →
      (∀ x ∈ disc, R x) → (∀ x ∈ queue, x = s₀ ∨ R x) →
      ∀ x ∈ res, R x := by
  intro fuel
  induction fuel with
  | zero =>
    intro queue disc res hrun hdisc _
    cases queue with
    | nil =>
      obtain rfl : disc = res := Option.some.inj hrun
      exact hdisc
    | cons s rest => exact absurd hrun (by simp [bfsAux])
  | succ f ih =>
    intro queue disc res hrun hdisc hqueue
    cases queue with
    | nil =>
      obtain rfl : disc = res := Option.some.inj hrun
      exact hdisc
    | cons s rest =>
      obtain ⟨new, h1, _, h3, _⟩ := discoverAll_spec (adj s) disc rest
      have hdef : bfsAux adj (s :: rest) disc (f + 1)
          = bfsAux adj (discoverAll (adj s) disc rest).2 (discoverAll (adj s) disc rest).1 f :=
        rfl
      rw [hdef, h1] at hrun
      have hRnew : ∀ x ∈ new, R x := by
        intro x hx
        rcases hqueue s (List.mem_cons_self _ _) with rfl | hRs
        · exact hbase x (h3 x hx).1
        · exact hstep s x hRs (h3 x hx).1
      refine ih (rest ++ new) (disc ++ new) res hrun ?_ ?_
      · intro x hx
        rcases List.mem_append.mp hx with hx | hx
        · exact hdisc x hx
        · exact hRnew x hx
      · intro x hx
        rcases List.mem_append.mp hx with hx | hx
        · exact hqueue x (List.mem_cons_of_mem _ hx)
        · exact Or.inr (hRnew x hx)

/-- Closure invariant of the loop: when every discovered state (and the
start) is either still queued or has all its neighbours discovered, the
final result contains the discovered set and is closed under edge steps
from the start and from its own members. -/
theorem bfsAux_closed {S : Type} [DecidableEq S] (adj : S → List S) (s₀ : S) :
    ∀ (fuel : Nat) (queue disc res : List S),
      bfsAux adj queue disc fuel = some res →
      (∀ x, (x = s₀ ∨ x ∈ disc) → x ∈ queue ∨ ∀ n ∈ adj x, n ∈ disc) →
      (∀ x ∈ disc, x ∈ res) ∧ (∀ x, (x = s₀ ∨ x ∈ res) → ∀ n ∈ adj x, n ∈ res) := by
  intro fuel
  induction fuel with
  | zero =>
    intro queue disc res hrun hinv
    cases queue with
    | nil =>
      obtain rfl : disc = res := Option.some.inj hrun
      refine ⟨fun x hx => hx, ?_⟩
      intro x hx n hn
      rcases hinv x hx with hq | hcl
      · exact absurd hq (List.not_mem_nil x)
      · exact hcl n hn
    | cons s rest => exact absurd hrun (by simp [bfsAux])
  | succ f ih =>
    intro queue disc res hrun hinv
    cases queue with
    | nil =>
      obtain rfl : disc = res := Option.some.inj hrun
      refine ⟨fun x hx => hx, ?_⟩
      intro x hx n hn
      rcases hinv x hx with hq | hcl
      · exact absurd hq (List.not_mem_nil x)
      · exact hcl n hn
    | cons s rest =>
      obtain ⟨new, h1, _, _, h4⟩ := discoverAll_spec (adj s) disc rest
      have hdef : bfsAux adj (s :: rest) disc (f + 1)
          = bfsAux adj (discoverAll (adj s) disc rest).2 (discoverAll (adj s) disc rest).1 f :=
        rfl
      rw [hdef, h1] at hrun
      have hinv' : ∀ x, (x = s₀ ∨ x ∈ disc ++ new) →
          x ∈ rest ++ new ∨ ∀ n ∈ adj x, n ∈ disc ++ new := by
        intro x hx
        have hx' : (x = s₀ ∨ x ∈ disc) ∨ x ∈ new := by
          rcases hx with rfl | hx
          · exact Or.inl (Or.inl rfl)
          · rcases List.mem_append.mp hx with hx | hx
            · exact Or.inl (Or.inr hx)
            · exact Or.inr hx
        rcases hx' with hx' | hx'
        · rcases hinv x hx' with hq | hcl
          · rcases List.mem_cons.mp hq with rfl | hq
            · exact Or.inr h4
            · exact Or.inl (List.mem_append.mpr (Or.inl hq))
          · exact Or.inr fun n hn => List.mem_append.mpr (Or.inl (hcl n hn))
        · exact Or.inl (List.mem_append.mpr (Or.inr hx'))
      obtain ⟨hsub, hcl⟩ := ih (rest ++ new) (disc ++ new) res hrun hinv'
      exact ⟨fun x hx => hsub x (List.mem_append.mpr (Or.inl hx)), hcl⟩

/-- Membership in the outgoing-neighbour list is existence of a stored
graph edge. -/
theorem mem_neighborsOutgoing {S T : Type} [DecidableEq S] (a : DFA S T) (x y : S) :
    y ∈ a.neighborsOutgoing x ↔ ∃ sym, (x, y, sym) ∈ a.graphEdges := by
  unfold DFA.neighborsOutgoing
  constructor
  · intro hy
    obtain ⟨e, he, rfl⟩ := List.mem_map.mp hy
    obtain ⟨e1, e2, e3⟩ := e
    have hf := List.mem_filter.mp he
    have hx : e1 = x := by simpa using hf.2
    exact ⟨e3, by rw [← hx]; exact hf.1⟩
  · rintro ⟨sym, hmem⟩
    refine List.mem_map.mpr ⟨(x, y, sym), List.mem_filter.mpr ⟨hmem, by simp⟩, rfl⟩

/-- Pointwise-equivalent step relations generate the same transitive
closure. -/
theorem transGen_congr {α : Type} {r r' : α → α → Prop}
    (h : ∀ x y, r x y ↔ r' x y) (a b : α) :
    Relation.TransGen r a b ↔ Relation.TransGen r' a b :=
  ⟨Relation.TransGen.mono fun x y hxy => (h x y).mp hxy,
   Relation.TransGen.mono fun x y hxy => (h x y).mpr hxy⟩

/-- The breadth-first loop of `reachable` always completes within its fuel
of `graphEdges.length + 1` pops: each state enters the discovered set before
it is enqueued, so it is enqueued at most once, and every enqueued state is
the destination of some stored edge. -/
theorem reachable_run_isSome {S T : Type} [DecidableEq S] (a : DFA S T) (s : S) :
    (bfsAux a.neighborsOutgoing [s] [] (a.graphEdges.length + 1)).isSome := by
  apply bfsAux_isSome a.neighborsOutgoing (a.graphEdges.map (fun e => e.2.1))
  · intro u x hx
    unfold DFA.neighborsOutgoing at hx
    obtain ⟨e, he, rfl⟩ := List.mem_map.mp hx
    exact List.mem_map.mpr ⟨e, (List.mem_filter.mp he).1, rfl⟩
  · exact List.nodup_nil
  · simp
  · have hd : (a.graphEdges.map (fun e => e.2.1)).dedup.length
        ≤ (a.graphEdges.map (fun e => e.2.1)).length :=
      List.Sublist.length_le (List.dedup_sublist _)
    simp only [List.length_map] at hd
    simp only [List.length_cons, List.length_nil]
    omega

/-- Characterization of the breadth-first traversal: a state is in the
result exactly when a directed path of length at least one through the
stored graph edges connects the start state to it. -/
theorem reachable_iff_transGen_adj {S T : Type} [DecidableEq S] (a : DFA S T) (s t : S) :
    t ∈ a.reachable s ↔ Relation.TransGen (fun x y => y ∈ a.neighborsOutgoing x) s t := by
  obtain ⟨r, hr⟩ := Option.isSome_iff_exists.mp (reachable_run_isSome a s)
  have hreach : a.reachable s = r := by
    unfold DFA.reachable
    rw [hr]
    rfl
  rw [hreach]
  constructor
  · intro ht
    refine bfsAux_sound a.neighborsOutgoing s
      (Relation.TransGen (fun x y => y ∈ a.neighborsOutgoing x) s) ?_ ?_
      _ [s] [] r hr ?_ ?_ t ht
    · intro n hn
      exact Relation.TransGen.single hn
    · intro x n hx hn
      exact Relation.TransGen.tail hx hn
    · intro x hx
      exact absurd hx (List.not_mem_nil x)
    · intro x hx
      rcases List.mem_cons.mp hx with rfl | hx
      · exact Or.inl rfl
      · exact absurd hx (List.not_mem_nil x)
  · intro ht
    have hcl := bfsAux_closed a.neighborsOutgoing s _ [s] [] r hr ?inv
    case inv =>
      intro x hx
      rcases hx with rfl | hx
      · exact Or.inl (List.mem_cons_self _ _)
      · exact absurd hx (List.not_mem_nil x)
    induction ht with
    | single h => exact hcl.2 s (Or.inl rfl) _ h
    | tail _ h2 ihh => exact hcl.2 _ (Or.inr ihh) _ h2

/-- Existence of a stored edge for a given (source, destination) pair. -/
def pairMem {S T : Type} (l : List (S × S × T)) (x y : S) : Prop :=
  ∃ sym, (x, y, sym) ∈ l

/-- The (source, destination) pairs of `add_edge` are the old pairs plus the
inserted one, whether the label was replaced or the edge appended. -/
theorem addEdge_pairMem {S T : Type} [DecidableEq S]
    (edges : List (S × S × T)) (src dst : S) (sym : T) (x y : S) :
    pairMem (addEdge edges src dst sym) x y ↔ (x = src ∧ y = dst) ∨ pairMem edges x y := by
  unfold addEdge pairMem
  by_cases hany : edges.any (fun e => decide (e.1 = src) && decide (e.2.1 = dst))
  · simp only [if_pos hany]
    constructor
    · rintro ⟨q, hq⟩
      obtain ⟨e, he, hfe⟩ := List.mem_map.mp hq
      by_cases hc : e.1 = src ∧ e.2.1 = dst
      · rw [if_pos hc] at hfe
        obtain ⟨h1, h2, _⟩ := Prod.mk.injEq .. ▸ hfe
        exact Or.inl ⟨h1.symm, (congrArg (fun p => p.2.1) hfe).symm⟩
      · rw [if_neg hc] at hfe
        exact Or.inr ⟨q, hfe ▸ he⟩
    · rintro (⟨rfl, rfl⟩ | ⟨q, hq⟩)
      · obtain ⟨e, he, hc⟩ := List.any_eq_true.mp hany
        have hc' : e.1 = x ∧ e.2.1 = y := by
          constructor
          · exact of_decide_eq_true (Bool.and_elim_left hc)
          · exact of_decide_eq_true (Bool.and_elim_right hc)
        exact ⟨sym, List.mem_map.mpr ⟨e, he, by rw [if_pos hc']⟩⟩
      · by_cases hc : x = src ∧ y = dst
        · obtain ⟨rfl, rfl⟩ := hc
          exact ⟨sym, List.mem_map.mpr ⟨(x, y, q), hq, by simp⟩⟩
        · refine ⟨q, List.mem_map.mpr ⟨(x, y, q), hq, ?_⟩⟩
          rw [if_neg (by simpa using hc)]
  · simp only [if_neg hany]
    constructor
    · rintro ⟨q, hq⟩
      rcases List.mem_append.mp hq with hq | hq
      · exact Or.inr ⟨q, hq⟩
      · rcases List.mem_singleton.mp hq with h
        obtain ⟨h1, h2, _⟩ := Prod.mk.injEq .. ▸ h
        exact Or.inl ⟨h1, congrArg (fun p => p.2.1) h⟩
    · rintro (⟨rfl, rfl⟩ | ⟨q, hq⟩)
      · exact ⟨sym, List.mem_append.mpr (Or.inr (List.mem_singleton.mpr rfl))⟩
      · exact ⟨q, List.mem_append.mpr (Or.inl hq)⟩

/-- The (source, destination) pairs of `hsInsert` on the flat transition set
are the old pairs plus the inserted one. -/
theorem hsInsert_pairMem {S T : Type} [DecidableEq S] [DecidableEq T]
    (l : List (S × S × T)) (src dst : S) (sym : T) (x y : S) :
    pairMem (hsInsert (src, dst, sym) l) x y ↔ (x = src ∧ y = dst) ∨ pairMem l x y := by
  unfold pairMem
  constructor
  · rintro ⟨q, hq⟩
    rcases (mem_hsInsert _ _ _).mp hq with h | h
    · obtain ⟨h1, h2, _⟩ := Prod.mk.injEq .. ▸ h
      exact Or.inl ⟨h1, congrArg (fun p => p.2.1) h⟩
    · exact Or.inr ⟨q, h⟩
  · rintro (⟨rfl, rfl⟩ | ⟨q, hq⟩)
    · exact ⟨sym, (mem_hsInsert _ _ _).mpr (Or.inl rfl)⟩
    · exact ⟨q, (mem_hsInsert _ _ _).mpr (Or.inr hq)⟩

/-- In every automaton built through the construction API, the adjacency
graph and the flat transition set store the same (source, destination)
pairs. -/
theorem buildDFA_pairMem {S T : Type} [DecidableEq S] [DecidableEq T]
    (ops : List (DFAOp S T)) (x y : S) :
    pairMem (buildDFA ops).graphEdges x y ↔ pairMem (buildDFA ops).transitions x y := by
  suffices h : ∀ (a : DFA S T),
      (∀ u v, pairMem a.graphEdges u v ↔ pairMem a.transitions u v) →
      ∀ u v, pairMem (ops.foldl DFA.applyOp a).graphEdges u v ↔
        pairMem (ops.foldl DFA.applyOp a).transitions u v by
    refine h (DFA.new S T) ?_ x y
    intro u v
    constructor
    · rintro ⟨q, hq⟩
      exact absurd hq (List.not_mem_nil _)
    · rintro ⟨q, hq⟩
      exact absurd hq (List.not_mem_nil _)
  clear x y
  induction ops with
  | nil => intro a ha u v; exact ha u v
  | cons op ops ih =>
    intro a ha u v
    refine ih (a.applyOp op) ?_ u v
    intro u v
    cases op with
    | addState s => exact ha u v
    | addInitialState s => exact ha u v
    | addFinalState s => exact ha u v
    | addTransition src dst sym =>
      show pairMem (addEdge a.graphEdges src dst sym) u v ↔
        pairMem (hsInsert (src, dst, sym) a.transitions) u v
      rw [addEdge_pairMem, hsInsert_pairMem]
      exact or_congr Iff.rfl (ha u v)

/-- The scenario automaton of the spec: states {A, B, C}, initial {A},
final {C}, transitions A to B on "x" and B to C on "y". -/
def abcDFA : DFA String String :=
  (((((((DFA.new String String).add_state "A").add_state "B").add_state
    "C").add_initial_state "A").add_final_state "C").add_transition "A" "B"
    "x").add_transition "B" "C" "y"

/-- C1: for every automaton built through the edge-list construction API and
every state `s`, `reachable s` contains exactly the states connected to `s`
by a directed path of length at least one through stored transitions, and
`s` itself is in the result exactly when a directed cycle of length at
least one returns to `s`. -/
theorem C1_reachable_exactly_paths {S T : Type} [DecidableEq S] [DecidableEq T]
    (ops : List (DFAOp S T)) (s t : S) :
    (t ∈ (buildDFA ops).reachable s ↔
      Relation.TransGen (fun x y => pairMem (buildDFA ops).transitions x y) s t) ∧
    (s ∈ (buildDFA ops).reachable s ↔
      Relation.TransGen (fun x y => pairMem (buildDFA ops).transitions x y) s s) := by
  have key : ∀ u : S, u ∈ (buildDFA ops).reachable s ↔
      Relation.TransGen (fun x y => pairMem (buildDFA ops).transitions x y) s u := by
    intro u
    rw [reachable_iff_transGen_adj]
    apply transGen_congr
    intro x y
    exact (mem_neighborsOutgoing _ x y).trans (buildDFA_pairMem ops x y)
  exact ⟨key t, key s⟩

/-- C2: `is_productive` is true exactly when the reachable set meets the
final-state set, and on the scenario automaton `reachable A = {B, C}`,
`is_productive A = true`, `is_productive B = true`, and
`is_productive C = false` (a final state with no outgoing edge is not
productive). -/
theorem C2_is_productive_iff {S T : Type} [DecidableEq S] :
    (∀ (a : DFA S T) (s : S),
      a.is_productive s = true ↔ ∃ x, x ∈ a.reachable s ∧ x ∈ a.final_states) ∧
    abcDFA.reachable "A" = ["B", "C"] ∧
    abcDFA.is_productive "A" = true ∧
    abcDFA.is_productive "B" = true ∧
    abcDFA.is_productive "C" = false := by
  refine ⟨?_, by rfl, by rfl, by rfl, by rfl⟩
  intro a s
  unfold DFA.is_productive
  simp only [List.any_eq_true, decide_eq_true_eq]

/-- C3 counterexample: calling `add_transition` alone stores a transition
whose endpoints are absent from the general state set: after the single
call `add_transition (A, B, x)` on a fresh automaton, the transition is
stored but `A` is not in `states`. -/
theorem C3_counterexample_add_transition :
    ("A", "B", "x") ∈ ((DFA.new String String).add_transition "A" "B" "x").transitions ∧
    "A" ∉ ((DFA.new String String).add_transition "A" "B" "x").states := by
  constructor
  · show ("A", "B", "x") ∈ [("A", "B", "x")]
    exact List.mem_singleton.mpr rfl
  · show "A" ∉ ([] : List String)
    exact List.not_mem_nil _

/-- Referenced-state invariant that the code actually maintains: initial and
final states are in the general state set, and every endpoint of a stored
transition is a node of the adjacency graph. -/
def refInv {S T : Type} (a : DFA S T) : Prop :=
  (∀ x ∈ a.initial_states, x ∈ a.states) ∧
  (∀ x ∈ a.final_states, x ∈ a.states) ∧
  (∀ src dst sym, (src, dst, sym) ∈ a.transitions →
    src ∈ a.graphNodes ∧ dst ∈ a.graphNodes)

/-- Membership survives `hsInsert`. -/
theorem mem_hsInsert_of_mem {α : Type} [DecidableEq α] {x v : α} {l : List α}
    (h : x ∈ l) : x ∈ hsInsert v l :=
  (mem_hsInsert x v l).mpr (Or.inr h)

/-- The inserted element is in `hsInsert`. -/
theorem self_mem_hsInsert {α : Type} [DecidableEq α] (v : α) (l : List α) :
    v ∈ hsInsert v l :=
  (mem_hsInsert v v l).mpr (Or.inl rfl)

/-- Every single construction operation preserves `refInv`. -/
theorem refInv_applyOp {S T : Type} [DecidableEq S] [DecidableEq T]
    {a : DFA S T} (op : DFAOp S T) (h : refInv a) : refInv (a.applyOp op) := by
  obtain ⟨h1, h2, h3⟩ := h
  cases op with
  | addState s =>
    refine ⟨?_, ?_, ?_⟩
    · intro x hx
      exact mem_hsInsert_of_mem (h1 x hx)
    · intro x hx
      exact mem_hsInsert_of_mem (h2 x hx)
    · intro src dst sym hmem
      exact ⟨mem_hsInsert_of_mem (h3 src dst sym hmem).1,
        mem_hsInsert_of_mem (h3 src dst sym hmem).2⟩
  | addInitialState s =>
    refine ⟨?_, ?_, ?_⟩
    · intro x hx
      rcases (mem_hsInsert x s a.initial_states).mp hx with rfl | hx
      · exact self_mem_hsInsert x a.states
      · exact mem_hsInsert_of_mem (h1 x hx)
    · intro x hx
      exact mem_hsInsert_of_mem (h2 x hx)
    · intro src dst sym hmem
      exact ⟨mem_hsInsert_of_mem (h3 src dst sym hmem).1,
        mem_hsInsert_of_mem (h3 src dst sym hmem).2⟩
  | addFinalState s =>
    refine ⟨?_, ?_, ?_⟩
    · intro x hx
      exact mem_hsInsert_of_mem (h1 x hx)
    · intro x hx
      rcases (mem_hsInsert x s a.final_states).mp hx with rfl | hx
      · exact self_mem_hsInsert x a.states
      · exact mem_hsInsert_of_mem (h2 x hx)
    · intro src dst sym hmem
      exact ⟨mem_hsInsert_of_mem (h3 src dst sym hmem).1,
        mem_hsInsert_of_mem (h3 src dst sym hmem).2⟩
  | addTransition src dst sym =>
    refine ⟨h1, h2, ?_⟩
    intro u v q hmem
    rcases (mem_hsInsert (u, v, q) (src, dst, sym) a.transitions).mp hmem with heq | hold
    · obtain ⟨hu, hv, _⟩ : u = src ∧ v = dst ∧ q = sym := by
        simpa [Prod.ext_iff] using heq
      subst hu
      subst hv
      exact ⟨mem_hsInsert_of_mem (self_mem_hsInsert u a.graphNodes),
        self_mem_hsInsert v (hsInsert u a.graphNodes)⟩
    · exact ⟨mem_hsInsert_of_mem (mem_hsInsert_of_mem (h3 u v q hold).1),
        mem_hsInsert_of_mem (mem_hsInsert_of_mem (h3 u v q hold).2)⟩

/-- C3 amended: after every sequence of construction calls, every state in
the initial-state set or the final-state set is in the general state set,
and every endpoint of a stored transition is present as a node of the
adjacency graph (but, per the counterexample, not necessarily in the
general state set). -/
theorem C3_amended_referenced_states {S T : Type} [DecidableEq S] [DecidableEq T]
    (ops : List (DFAOp S T)) :
    (∀ x ∈ (buildDFA ops).initial_states, x ∈ (buildDFA ops).states) ∧
    (∀ x ∈ (buildDFA ops).final_states, x ∈ (buildDFA ops).states) ∧
    (∀ src dst sym, (src, dst, sym) ∈ (buildDFA ops).transitions →
      src ∈ (buildDFA ops).graphNodes ∧ dst ∈ (buildDFA ops).graphNodes) := by
  suffices h : ∀ a : DFA S T, refInv a → refInv (ops.foldl DFA.applyOp a) by
    exact h (DFA.new S T)
      ⟨fun x hx => absurd hx (List.not_mem_nil x),
       fun x hx => absurd hx (List.not_mem_nil x),
       fun src dst sym hmem => absurd hmem (List.not_mem_nil _)⟩
  induction ops with
  | nil => exact fun a ha => ha
  | cons op ops ih => exact fun a ha => ih (a.applyOp op) (refInv_applyOp op ha)

/-- Witness for the amended C3 invariant at a concrete build sequence. -/
theorem C3_amended_referenced_states_witness :
    "A" ∈ (buildDFA [DFAOp.addInitialState "A",
      DFAOp.addTransition "A" "B" "x"] : DFA String String).states ∧
    "B" ∈ (buildDFA [DFAOp.addInitialState "A",
      DFAOp.addTransition "A" "B" "x"] : DFA String String).graphNodes := by
  constructor
  · exact (C3_amended_referenced_states [DFAOp.addInitialState "A",
      DFAOp.addTransition "A" "B" "x"]).1 "A" (by decide)
  · exact ((C3_amended_referenced_states [DFAOp.addInitialState "A",
      DFAOp.addTransition "A" "B" "x"]).2.2 "A" "B" "x" (by decide)).2

/-- C9: the breadth-first loop of `reachable` terminates on every automaton,
cyclic transition graphs included: it completes within `graphEdges.length + 1`
queue pops, because each state is inserted into the discovered set before it
is enqueued and is therefore enqueued at most once. -/
theorem C9_reachable_terminates {S T : Type} [DecidableEq S] (a : DFA S T) (s : S) :
    ∃ r, bfsAux a.neighborsOutgoing [s] [] (a.graphEdges.length + 1) = some r ∧
      a.reachable s = r := by
  obtain ⟨r, hr⟩ := Option.isSome_iff_exists.mp (reachable_run_isSome a s)
  refine ⟨r, hr, ?_⟩
  unfold DFA.reachable
  rw [hr]
  rfl

/-!
Part 2 embeds `typestate-proc-macro/src/intermediate_graph.rs`: the
intermediate automaton (`states`, `choices`, and a transition relation
`delta` keyed by optional source state, mapping transition symbols to
destination nodes) and its three triple renderers.  Hash maps are embedded
as association lists with replace-on-existing-key insertion; the `Display`
bounds are embedded as explicit `show` functions into `String`; the
`unreachable!` panics of the renderers are embedded as `none`. -/

/-- Embedding of `Metadata`: an optional display-label override. -/
structure Metadata where
  transition_label : Option String
deriving DecidableEq

/-- Embedding of `StateNode<S>`: an optional underlying state (absent is
the terminal pseudo-state) plus its metadata. -/
structure StateNode (S : Type) where
  state : Option S
  metadata : Metadata
deriving DecidableEq

/-- Embedding of `Node<S>`: a single state destination or a decision over
an ordered list of branch candidates. -/
inductive Node (S : Type) where
  | State : StateNode S → Node S
  | Decision : List (StateNode S) → Node S
deriving DecidableEq

/-- Embedding of the intermediate `Transition<T>` wrapper. -/
structure Transition (T : Type) where
  transition : T
deriving DecidableEq

/-- Lookup in a hash map embedded as an association list. -/
def getA {K V : Type} [DecidableEq K] (k : K) : List (K × V) → Option V
  | [] => none
  | p :: rest => if p.1 = k then some p.2 else getA k rest

/-- Insertion into a hash map embedded as an association list: the value of
an existing key is replaced, otherwise the pair is appended. -/
def insertA {K V : Type} [DecidableEq K] (k : K) (v : V) : List (K × V) → List (K × V)
  | [] => [(k, v)]
  | p :: rest => if p.1 = k then (k, v) :: rest else p :: insertA k v rest

/-- Embedding of `IntermediateAutomaton<S, T>`. -/
structure IntermediateAutomaton (S T : Type) where
  states : List S
  choices : List S
  delta : List (Option S × List (Transition T × Node S))

/-- Embedding of `IntermediateAutomaton::new`. -/
def IntermediateAutomaton.new (S T : Type) : IntermediateAutomaton S T :=
  ⟨[], [], []⟩

/-- Embedding of the intermediate `add_state`. -/
def IntermediateAutomaton.add_state {S T : Type} [DecidableEq S]
    (a : IntermediateAutomaton S T) (state : S) : IntermediateAutomaton S T :=
  { a with states := hsInsert state a.states }

/-- Embedding of `add_choice`. -/
def IntermediateAutomaton.add_choice {S T : Type} [DecidableEq S]
    (a : IntermediateAutomaton S T) (choice : S) : IntermediateAutomaton S T :=
  { a with choices := hsInsert choice a.choices }

/-- Embedding of the intermediate `add_transition`: when the source key is
present, the destination node is upserted into its inner map (replacing any
node stored under the same transition symbol); otherwise a fresh inner map
with the single entry is stored under the source key. -/
def IntermediateAutomaton.add_transition {S T : Type} [DecidableEq S] [DecidableEq T]
    (a : IntermediateAutomaton S T) (source : Option S) (t : Transition T)
    (destinations : Node S) : IntermediateAutomaton S T :=
  match getA source a.delta with
  | some source_value =>
    { a with delta := insertA source (insertA t destinations source_value) a.delta }
  | none =>
    { a with delta := a.delta ++ [(source, [(t, destinations)])] }

/-- One decision-branch edge of the Mermaid-style triple renderer: its text
is the branch's label override when present, otherwise nothing. -/
def mermaidDecisionLine {S : Type} (showS : S → String) (src : S) (sn : StateNode S) : String :=
  match sn.state with
  | some state =>
    match sn.metadata.transition_label with
    | some label => showS src ++ " --> " ++ showS state ++ " : " ++ label ++ "\n"
    | none => showS src ++ " --> " ++ showS state ++ "\n"
  | none =>
    match sn.metadata.transition_label with
    | some label => showS src ++ " --> [*] : " ++ label ++ "\n"
    | none => showS src ++ " --> [*]\n"

/-- Embedding of `IntoMermaid for (&Option<S>, &Transition<T>, &Node<S>)`.
`none` models the `unreachable!` panics on a start-sourced transition whose
destination is the terminal pseudo-state or a decision. -/
def into_mermaid_triple {S T : Type} (showS : S → String) (showT : T → String) :
    Option S → Transition T → Node S → Option String
  | some src, t, Node.State state =>
    match state.state with
    | none => some (showS src ++ " --> [*] : " ++ showT t.transition ++ "\n")
    | some s =>
      match state.metadata.transition_label with
      | some label => some (showS src ++ " --> " ++ label ++ " : " ++ showT t.transition ++ "\n")
      | none => some (showS src ++ " --> " ++ showS s ++ " : " ++ showT t.transition ++ "\n")
  | some src, _, Node.Decision decision =>
    some (String.join (decision.map (mermaidDecisionLine showS src)))
  | none, t, Node.State state =>
    match state.state with
    | none => none
    | some s =>
      match state.metadata.transition_label with
      | some label => some ("[*] --> " ++ label ++ " : " ++ showT t.transition ++ "\n")
      | none => some ("[*] --> " ++ showS s ++ " : " ++ showT t.transition ++ "\n")
  | none, _, Node.Decision _ => none

/-- One decision-branch edge of the PlantUML-style triple renderer. -/
def plantumlDecisionLine {S : Type} (showS : S → String) (src : S) (sn : StateNode S) : String :=
  match sn.state with
  | some state =>
    match sn.metadata.transition_label with
    | some label => showS src ++ " --> " ++ showS state ++ " : " ++ label ++ "\n"
    | none => showS src ++ " --> " ++ showS state ++ "\n"
  | none =>
    match sn.metadata.transition_label with
    | some label => showS src ++ " --> [*] : " ++ label ++ "\n"
    | none => showS src ++ " --> [*]\n"

/-- Embedding of `IntoPlantUml for (&Option<S>, &Transition<T>, &Node<S>)`. -/
def into_plantuml_triple {S T : Type} (showS : S → String) (showT : T → String) :
    Option S → Transition T → Node S → Option String
  | some src, t, Node.State state =>
    match state.state with
    | none => some (showS src ++ " --> [*] : " ++ showT t.transition ++ "\n")
    | some s =>
      match state.metadata.transition_label with
      | some label => some (showS src ++ " --> " ++ label ++ " : " ++ showT t.transition ++ "\n")
      | none => some (showS src ++ " --> " ++ showS s ++ " : " ++ showT t.transition ++ "\n")
  | some src, _, Node.Decision decision =>
    some (String.join (decision.map (plantumlDecisionLine showS src)))
  | none, t, Node.State state =>
    match state.state with
    | none => none
    | some s =>
      match state.metadata.transition_label with
      | some label => some ("[*] --> " ++ label ++ " : " ++ showT t.transition ++ "\n")
      | none => some ("[*] --> " ++ showS s ++ " : " ++ showT t.transition ++ "\n")
  | none, _, Node.Decision _ => none

/-- One decision-branch edge of the Graphviz-style triple renderer (written
with `write!`, so branch edges carry no trailing newline). -/
def dotDecisionLine {S : Type} (showS : S → String) (src : S) (sn : StateNode S) : String :=
  match sn.state with
  | some state =>
    match sn.metadata.transition_label with
    | some label => showS src ++ " -> " ++ showS state ++ " [label=" ++ label ++ "];"
    | none => showS src ++ " -> " ++ showS state ++ ";"
  | none =>
    match sn.metadata.transition_label with
    | some label => showS src ++ " -> _final_ [label=" ++ label ++ "];"
    | none => showS src ++ " -> _final_;"

/-- Embedding of `IntoDot for (&Option<S>, &Transition<T>, &Node<S>)`. -/
def into_dot_triple {S T : Type} (showS : S → String) (showT : T → String) :
    Option S → Transition T → Node S → Option String
  | some src, t, Node.State state =>
    match state.state with
    | none => some (showS src ++ " -> _final_ [label=" ++ showT t.transition ++ "];")
    | some s =>
      match state.metadata.transition_label with
      | some label => some (showS src ++ " -> " ++ label ++ " [label=" ++ showT t.transition ++ "];")
      | none => some (showS src ++ " -> " ++ showS s ++ " [label=" ++ showT t.transition ++ "];")
  | some src, _, Node.Decision decision =>
    some (String.join (decision.map (dotDecisionLine showS src)))
  | none, t, Node.State state =>
    match state.state with
    | none => none
    | some s =>
      match state.metadata.transition_label with
      | some label => some ("_initial_ -> " ++ label ++ " [label=" ++ showT t.transition ++ "];")
      | none => some ("_initial_ -> " ++ showS s ++ " [label=" ++ showT t.transition ++ "];")
  | none, _, Node.Decision _ => none

/-- Embedding of `IntoMermaid for IntermediateAutomaton`: header, choice
declarations, state declarations, then one line per (source, symbol,
destination) entry.  Faithful to the source, each transition line is
produced by the PlantUML triple renderer. -/
def into_mermaid_automaton {S T : Type} (showS : S → String) (showT : T → String)
    (a : IntermediateAutomaton S T) : Option String := do
  let entryLines ← a.delta.mapM (fun e =>
    (e.2.mapM (fun p => into_plantuml_triple showS showT e.1 p.1 p.2)).map
      (fun ls => String.join (ls.map (fun l => l ++ "\n"))))
  some ("stateDiagram-v2\n"
    ++ String.join (a.choices.map (fun s => "state " ++ showS s ++ " <<choice>>\n"))
    ++ String.join (a.states.map (fun s => "state " ++ showS s ++ "\n"))
    ++ String.join entryLines)

/-- Variant of the Mermaid automaton export in which each transition line is
produced by the Mermaid triple renderer instead; used to compare against
the source's behaviour of calling the PlantUML triple renderer. -/
def into_mermaid_automaton_own_triple {S T : Type} (showS : S → String) (showT : T → String)
    (a : IntermediateAutomaton S T) : Option String := do
  let entryLines ← a.delta.mapM (fun e =>
    (e.2.mapM (fun p => into_mermaid_triple showS showT e.1 p.1 p.2)).map
      (fun ls => String.join (ls.map (fun l => l ++ "\n"))))
  some ("stateDiagram-v2\n"
    ++ String.join (a.choices.map (fun s => "state " ++ showS s ++ " <<choice>>\n"))
    ++ String.join (a.states.map (fun s => "state " ++ showS s ++ "\n"))
    ++ String.join entryLines)

/-- Lookup after inserting the same key finds the inserted value. -/
theorem getA_insertA_self {K V : Type} [DecidableEq K] (k : K) (v : V) (l : List (K × V)) :
    getA k (insertA k v l) = some v := by
  induction l with
  | nil => simp [insertA, getA]
  | cons p rest ih =>
    by_cases h : p.1 = k
    · simp [insertA, getA, h]
    · simp [insertA, getA, h, ih]

/-- A successful lookup exhibits a stored entry. -/
theorem getA_mem {K V : Type} [DecidableEq K] {k : K} {v : V} :
    ∀ {l : List (K × V)}, getA k l = some v → (k, v) ∈ l := by
  intro l
  induction l with
  | nil => intro h; exact absurd h (by simp [getA])
  | cons p rest ih =>
    intro h
    by_cases hp : p.1 = k
    · rw [getA, if_pos hp] at h
      obtain rfl : p.2 = v := Option.some.inj h
      have he : (k, p.2) = p := by rw [← hp]
      rw [he]
      exact List.mem_cons_self _ _
    · rw [getA, if_neg hp] at h
      exact List.mem_cons_of_mem _ (ih h)

/-- When a key is absent from the front list, lookup over an append falls
through to the back list. -/
theorem getA_append_of_none {K V : Type} [DecidableEq K] (k : K) {l : List (K × V)}
    (h : getA k l = none) (l' : List (K × V)) : getA k (l ++ l') = getA k l' := by
  induction l with
  | nil => simp
  | cons p rest ih =>
    by_cases hp : p.1 = k
    · rw [getA, if_pos hp] at h
      exact absurd h (by simp)
    · rw [getA, if_neg hp] at h
      rw [List.cons_append, getA, if_neg hp]
      exact ih h

/-- Every entry of an inserted list is the new entry or an old one. -/
theorem insertA_mem_cases {K V : Type} [DecidableEq K] {k : K} {v : V} {x : K × V} :
    ∀ {l : List (K × V)}, x ∈ insertA k v l → x = (k, v) ∨ x ∈ l := by
  intro l
  induction l with
  | nil =>
    intro h
    exact Or.inl (List.mem_singleton.mp h)
  | cons p rest ih =>
    intro h
    by_cases hp : p.1 = k
    · rw [insertA, if_pos hp] at h
      rcases List.mem_cons.mp h with rfl | h
      · exact Or.inl rfl
      · exact Or.inr (List.mem_cons_of_mem _ h)
    · rw [insertA, if_neg hp] at h
      rcases List.mem_cons.mp h with rfl | h
      · exact Or.inr (List.mem_cons_self _ _)
      · rcases ih h with h | h
        · exact Or.inl h
        · exact Or.inr (List.mem_cons_of_mem _ h)

/-- Insertion preserves key distinctness. -/
theorem insertA_keysNodup {K V : Type} [DecidableEq K] (k : K) (v : V) :
    ∀ {l : List (K × V)}, (l.map Prod.fst).Nodup → ((insertA k v l).map Prod.fst).Nodup := by
  intro l
  induction l with
  | nil => intro _; simp [insertA]
  | cons p rest ih =>
    intro h
    rw [List.map_cons, List.nodup_cons] at h
    by_cases hp : p.1 = k
    · rw [insertA, if_pos hp, List.map_cons, List.nodup_cons]
      exact ⟨by rw [← hp]; exact h.1, h.2⟩
    · rw [insertA, if_neg hp, List.map_cons, List.nodup_cons]
      refine ⟨?_, ih h.2⟩
      intro hmem
      obtain ⟨q, hq, hq1⟩ := List.mem_map.mp hmem
      rcases insertA_mem_cases hq with hcase | hcase
      · rw [hcase] at hq1
        exact hp hq1.symm
      · exact h.1 (hq1 ▸ List.mem_map_of_mem Prod.fst hcase)

/-- On a key-distinct association list, filtering the inserted list for the
inserted key leaves exactly the new entry. -/
theorem insertA_filter_eq {K V : Type} [DecidableEq K] (k : K) (v : V) :
    ∀ {l : List (K × V)}, (l.map Prod.fst).Nodup →
      (insertA k v l).filter (fun p => decide (p.1 = k)) = [(k, v)] := by
  intro l
  induction l with
  | nil => intro _; simp [insertA]
  | cons p rest ih =>
    intro h
    rw [List.map_cons, List.nodup_cons] at h
    by_cases hp : p.1 = k
    · rw [insertA, if_pos hp]
      rw [List.filter_cons_of_pos (by simp)]
      have hrest : rest.filter (fun p => decide (p.1 = k)) = [] := by
        rw [List.filter_eq_nil_iff]
        intro q hq hqk
        rw [decide_eq_true_eq] at hqk
        exact h.1 (hp ▸ hqk ▸ List.mem_map_of_mem Prod.fst hq)
      rw [hrest]
    · rw [insertA, if_neg hp]
      rw [List.filter_cons_of_neg (by simp [hp])]
      exact ih h.2

/-- When the source key is already present, `add_transition` updates its
inner map by inserting the new destination. -/
theorem getA_add_transition_of_some {S T : Type} [DecidableEq S] [DecidableEq T]
    {b : IntermediateAutomaton S T} {src : Option S} {inner : List (Transition T × Node S)}
    (hg : getA src b.delta = some inner) (t : Transition T) (d : Node S) :
    getA src (b.add_transition src t d).delta = some (insertA t d inner) := by
  unfold IntermediateAutomaton.add_transition
  rw [hg]
  exact getA_insertA_self src _ _

/-- After two `add_transition` calls for the same (source, symbol) key, the
source key resolves to an inner map with distinct symbol keys whose entry
for the symbol is exactly the second destination. -/
theorem add_transition_twice {S T : Type} [DecidableEq S] [DecidableEq T]
    (a : IntermediateAutomaton S T) (src : Option S) (t : Transition T) (d1 d2 : Node S)
    (hwf : ∀ p ∈ a.delta, (p.2.map Prod.fst).Nodup) :
    ∃ inner2,
      getA src ((a.add_transition src t d1).add_transition src t d2).delta = some inner2 ∧
      (inner2.map Prod.fst).Nodup ∧
      getA t inner2 = some d2 ∧
      inner2.filter (fun p => decide (p.1 = t)) = [(t, d2)] := by
  have h1 : ∃ inner1, getA src (a.add_transition src t d1).delta = some inner1 ∧
      (inner1.map Prod.fst).Nodup := by
    unfold IntermediateAutomaton.add_transition
    cases hg : getA src a.delta with
    | some inner =>
      refine ⟨insertA t d1 inner, ?_, ?_⟩
      · exact getA_insertA_self src _ a.delta
      · exact insertA_keysNodup t d1 (hwf (src, inner) (getA_mem hg))
    | none =>
      refine ⟨[(t, d1)], ?_, by simp⟩
      rw [getA_append_of_none src hg]
      simp [getA]
  obtain ⟨inner1, hg1, hnd1⟩ := h1
  exact ⟨insertA t d2 inner1, getA_add_transition_of_some hg1 t d2,
    insertA_keysNodup t d2 hnd1, getA_insertA_self t d2 inner1,
    insertA_filter_eq t d2 hnd1⟩

/-- C4: for every intermediate automaton with well-formed hash maps, every
source (the absent start source included), every transition symbol and every
pair of destinations, adding (source, symbol, d1) and then (source, symbol,
d2) leaves the (source, symbol) key mapped to d2 only, and a subsequent
export renders only d2 for that key. -/
theorem C4_add_transition_replaces {S T : Type} [DecidableEq S] [DecidableEq T]
    (showS : S → String) (showT : T → String)
    (a : IntermediateAutomaton S T) (src : Option S) (t : Transition T) (d1 d2 : Node S)
    (hwf : ∀ p ∈ a.delta, (p.2.map Prod.fst).Nodup) :
    ∃ inner2,
      getA src ((a.add_transition src t d1).add_transition src t d2).delta = some inner2 ∧
      getA t inner2 = some d2 ∧
      inner2.filter (fun p => decide (p.1 = t)) = [(t, d2)] ∧
      (inner2.filter (fun p => decide (p.1 = t))).map
          (fun p => into_dot_triple showS showT src p.1 p.2)
        = [into_dot_triple showS showT src t d2] := by
  obtain ⟨inner2, hget, _, hlook, hfil⟩ := add_transition_twice a src t d1 d2 hwf
  refine ⟨inner2, hget, hlook, hfil, ?_⟩
  rw [hfil]
  simp

/-- Witness for C4 on a concrete automaton: re-adding the key (S, go) moves
the stored destination from T to U. -/
theorem C4_add_transition_replaces_witness :
    ∃ inner2,
      getA (some "S") (((IntermediateAutomaton.new String String).add_transition
          (some "S") ⟨"go"⟩ (Node.State ⟨some "T", ⟨none⟩⟩)).add_transition
          (some "S") ⟨"go"⟩ (Node.State ⟨some "U", ⟨none⟩⟩)).delta = some inner2 ∧
      getA ⟨"go"⟩ inner2 = some (Node.State ⟨some "U", ⟨none⟩⟩) ∧
      inner2.filter (fun p => decide (p.1 = (⟨"go"⟩ : Transition String)))
        = [(⟨"go"⟩, Node.State ⟨some "U", ⟨none⟩⟩)] ∧
      (inner2.filter (fun p => decide (p.1 = (⟨"go"⟩ : Transition String)))).map
          (fun p => into_dot_triple id id (some "S") p.1 p.2)
        = [into_dot_triple id id (some "S") ⟨"go"⟩ (Node.State ⟨some "U", ⟨none⟩⟩)] :=
  C4_add_transition_replaces id id (IntermediateAutomaton.new String String)
    (some "S") ⟨"go"⟩ (Node.State ⟨some "T", ⟨none⟩⟩) (Node.State ⟨some "U", ⟨none⟩⟩)
    (fun p hp => absurd hp (List.not_mem_nil p))

/-- C5: in every triple renderer, for a present source, decision-branch
edges never show the outer transition symbol (the output does not depend on
it, and each branch edge's text is the branch's own label override when
present, otherwise nothing), whereas the single edge for a direct
`Node::State` destination always displays the outer transition symbol as
its edge text. -/
theorem C5_decision_vs_direct_symbol {S T : Type} (showS : S → String) (showT : T → String) :
    (∀ (src : S) (t t' : Transition T) (bs : List (StateNode S)),
      into_dot_triple showS showT (some src) t (Node.Decision bs)
        = into_dot_triple showS showT (some src) t' (Node.Decision bs)) ∧
    (∀ (src : S) (t t' : Transition T) (bs : List (StateNode S)),
      into_plantuml_triple showS showT (some src) t (Node.Decision bs)
        = into_plantuml_triple showS showT (some src) t' (Node.Decision bs)) ∧
    (∀ (src : S) (t t' : Transition T) (bs : List (StateNode S)),
      into_mermaid_triple showS showT (some src) t (Node.Decision bs)
        = into_mermaid_triple showS showT (some src) t' (Node.Decision bs)) ∧
    (∀ (src : S) (t : Transition T) (bs : List (StateNode S)),
      into_dot_triple showS showT (some src) t (Node.Decision bs)
        = some (String.join (bs.map (fun sn =>
            match sn.state, sn.metadata.transition_label with
            | some st, some l => showS src ++ " -> " ++ showS st ++ " [label=" ++ l ++ "];"
            | some st, none => showS src ++ " -> " ++ showS st ++ ";"
            | none, some l => showS src ++ " -> _final_ [label=" ++ l ++ "];"
            | none, none => showS src ++ " -> _final_;")))) ∧
    (∀ (src : S) (t : Transition T) (bs : List (StateNode S)),
      into_plantuml_triple showS showT (some src) t (Node.Decision bs)
        = some (String.join (bs.map (fun sn =>
            match sn.state, sn.metadata.transition_label with
            | some st, some l => showS src ++ " --> " ++ showS st ++ " : " ++ l ++ "\n"
            | some st, none => showS src ++ " --> " ++ showS st ++ "\n"
            | none, some l => showS src ++ " --> [*] : " ++ l ++ "\n"
            | none, none => showS src ++ " --> [*]\n")))) ∧
    (∀ (src : S) (t : Transition T) (bs : List (StateNode S)),
      into_mermaid_triple showS showT (some src) t (Node.Decision bs)
        = some (String.join (bs.map (fun sn =>
            match sn.state, sn.metadata.transition_label with
            | some st, some l => showS src ++ " --> " ++ showS st ++ " : " ++ l ++ "\n"
            | some st, none => showS src ++ " --> " ++ showS st ++ "\n"
            | none, some l => showS src ++ " --> [*] : " ++ l ++ "\n"
            | none, none => showS src ++ " --> [*]\n")))) ∧
    (∀ (src : S) (t : Transition T) (sn : StateNode S),
      into_dot_triple showS showT (some src) t (Node.State sn)
        = some (match sn.state, sn.metadata.transition_label with
            | none, _ => showS src ++ " -> _final_ [label=" ++ showT t.transition ++ "];"
            | some _, some l => showS src ++ " -> " ++ l ++ " [label=" ++ showT t.transition ++ "];"
            | some s, none =>
              showS src ++ " -> " ++ showS s ++ " [label=" ++ showT t.transition ++ "];")) ∧
    (∀ (src : S) (t : Transition T) (sn : StateNode S),
      into_plantuml_triple showS showT (some src) t (Node.State sn)
        = some (match sn.state, sn.metadata.transition_label with
            | none, _ => showS src ++ " --> [*] : " ++ showT t.transition ++ "\n"
            | some _, some l => showS src ++ " --> " ++ l ++ " : " ++ showT t.transition ++ "\n"
            | some s, none =>
              showS src ++ " --> " ++ showS s ++ " : " ++ showT t.transition ++ "\n")) ∧
    (∀ (src : S) (t : Transition T) (sn : StateNode S),
      into_mermaid_triple showS showT (some src) t (Node.State sn)
        = some (match sn.state, sn.metadata.transition_label with
            | none, _ => showS src ++ " --> [*] : " ++ showT t.transition ++ "\n"
            | some _, some l => showS src ++ " --> " ++ l ++ " : " ++ showT t.transition ++ "\n"
            | some s, none =>
              showS src ++ " --> " ++ showS s ++ " : " ++ showT t.transition ++ "\n")) := by
  refine ⟨?_, ?_, ?_, ?_, ?_, ?_, ?_, ?_, ?_⟩
  · intro src t t' bs
    rfl
  · intro src t t' bs
    rfl
  · intro src t t' bs
    rfl
  · intro src t bs
    show some (String.join (bs.map (dotDecisionLine showS src))) = _
    refine congrArg (fun l => some (String.join l)) (List.map_congr_left ?_)
    intro sn _
    cases hs : sn.state with
    | none =>
      cases hl : sn.metadata.transition_label with
      | none => simp [dotDecisionLine, hs, hl]
      | some l => simp [dotDecisionLine, hs, hl]
    | some st =>
      cases hl : sn.metadata.transition_label with
      | none => simp [dotDecisionLine, hs, hl]
      | some l => simp [dotDecisionLine, hs, hl]
  · intro src t bs
    show some (String.join (bs.map (plantumlDecisionLine showS src))) = _
    refine congrArg (fun l => some (String.join l)) (List.map_congr_left ?_)
    intro sn _
    cases hs : sn.state with
    | none =>
      cases hl : sn.metadata.transition_label with
      | none => simp [plantumlDecisionLine, hs, hl]
      | some l => simp [plantumlDecisionLine, hs, hl]
    | some st =>
      cases hl : sn.metadata.transition_label with
      | none => simp [plantumlDecisionLine, hs, hl]
      | some l => simp [plantumlDecisionLine, hs, hl]
  · intro src t bs
    show some (String.join (bs.map (mermaidDecisionLine showS src))) = _
    refine congrArg (fun l => some (String.join l)) (List.map_congr_left ?_)
    intro sn _
    cases hs : sn.state with
    | none =>
      cases hl : sn.metadata.transition_label with
      | none => simp [mermaidDecisionLine, hs, hl]
      | some l => simp [mermaidDecisionLine, hs, hl]
    | some st =>
      cases hl : sn.metadata.transition_label with
      | none => simp [mermaidDecisionLine, hs, hl]
      | some l => simp [mermaidDecisionLine, hs, hl]
  · intro src t sn
    obtain ⟨os, m⟩ := sn
    cases os with
    | none => rfl
    | some s =>
      cases hm : m.transition_label with
      | none => simp [into_dot_triple, hm]
      | some l => simp [into_dot_triple, hm]
  · intro src t sn
    obtain ⟨os, m⟩ := sn
    cases os with
    | none => rfl
    | some s =>
      cases hm : m.transition_label with
      | none => simp [into_plantuml_triple, hm]
      | some l => simp [into_plantuml_triple, hm]
  · intro src t sn
    obtain ⟨os, m⟩ := sn
    cases os with
    | none => rfl
    | some s =>
      cases hm : m.transition_label with
      | none => simp [into_mermaid_triple, hm]
      | some l => simp [into_mermaid_triple, hm]

/-- Mapping in the `Option` monad fails as soon as one element fails. -/
theorem mapM_eq_none_of_mem {α β : Type} (f : α → Option β) :
    ∀ {l : List α}, (∃ x ∈ l, f x = none) → l.mapM f = none := by
  intro l
  induction l with
  | nil =>
    rintro ⟨x, hx, _⟩
    exact absurd hx (List.not_mem_nil x)
  | cons y ys ih =>
    rintro ⟨x, hx, hfx⟩
    rw [List.mapM_cons]
    rcases List.mem_cons.mp hx with rfl | hx
    · rw [hfx]
      rfl
    · cases hfy : f y with
      | none => rfl
      | some v =>
        rw [ih ⟨x, hx, hfx⟩]
        rfl

/-- The automaton-level Mermaid export fails on an automaton containing a
start-sourced transition to the terminal pseudo-state or to a decision. -/
theorem into_mermaid_automaton_malformed {S T : Type} (showS : S → String) (showT : T → String)
    (a : IntermediateAutomaton S T) (inner : List (Transition T × Node S))
    (hin : (none, inner) ∈ a.delta) (t : Transition T) (dst : Node S)
    (ht : (t, dst) ∈ inner)
    (hbad : into_plantuml_triple showS showT none t dst = none) :
    into_mermaid_automaton showS showT a = none := by
  unfold into_mermaid_automaton
  have houter : a.delta.mapM (fun e =>
      (e.2.mapM (fun p => into_plantuml_triple showS showT e.1 p.1 p.2)).map
        (fun ls => String.join (ls.map (fun l => l ++ "\n")))) = none := by
    apply mapM_eq_none_of_mem
    refine ⟨(none, inner), hin, ?_⟩
    have hinner : inner.mapM
        (fun p => into_plantuml_triple showS showT none p.1 p.2) = none := by
      apply mapM_eq_none_of_mem
      exact ⟨(t, dst), ht, hbad⟩
    rw [hinner]
    rfl
  rw [houter]
  rfl

/-- C6: in every triple renderer, a transition from the start pseudo-state
(absent source) to the terminal pseudo-state (a `Node::State` with absent
inner state) or to a decision node fails the `unreachable!` contract check
instead of producing output; an automaton-level export containing such an
entry likewise produces no output. -/
theorem C6_start_source_contract {S T : Type} (showS : S → String) (showT : T → String) :
    (∀ (t : Transition T) (md : Metadata),
      into_dot_triple showS showT none t (Node.State ⟨none, md⟩) = none) ∧
    (∀ (t : Transition T) (bs : List (StateNode S)),
      into_dot_triple showS showT none t (Node.Decision bs) = none) ∧
    (∀ (t : Transition T) (md : Metadata),
      into_plantuml_triple showS showT none t (Node.State ⟨none, md⟩) = none) ∧
    (∀ (t : Transition T) (bs : List (StateNode S)),
      into_plantuml_triple showS showT none t (Node.Decision bs) = none) ∧
    (∀ (t : Transition T) (md : Metadata),
      into_mermaid_triple showS showT none t (Node.State ⟨none, md⟩) = none) ∧
    (∀ (t : Transition T) (bs : List (StateNode S)),
      into_mermaid_triple showS showT none t (Node.Decision bs) = none) ∧
    (∀ (a : IntermediateAutomaton S T) (inner : List (Transition T × Node S)),
      (none, inner) ∈ a.delta →
      ∀ (t : Transition T) (md : Metadata), (t, Node.State ⟨none, md⟩) ∈ inner →
      into_mermaid_automaton showS showT a = none) ∧
    (∀ (a : IntermediateAutomaton S T) (inner : List (Transition T × Node S)),
      (none, inner) ∈ a.delta →
      ∀ (t : Transition T) (bs : List (StateNode S)), (t, Node.Decision bs) ∈ inner →
      into_mermaid_automaton showS showT a = none) := by
  refine ⟨fun t md => rfl, fun t bs => rfl, fun t md => rfl,
    fun t bs => rfl, fun t md => rfl, fun t bs => rfl, ?_, ?_⟩
  · intro a inner hin t md ht
    exact into_mermaid_automaton_malformed showS showT a inner hin t _ ht rfl
  · intro a inner hin t bs ht
    exact into_mermaid_automaton_malformed showS showT a inner hin t _ ht rfl

/-- Witness for the automaton-level part of C6: a concrete automaton with a
start-sourced transition to the terminal pseudo-state renders to nothing. -/
theorem C6_start_source_contract_witness :
    into_mermaid_automaton id id
      (⟨[], [], [(none, [(⟨"go"⟩, Node.State ⟨none, ⟨none⟩⟩)])]⟩ :
        IntermediateAutomaton String String) = none :=
  (C6_start_source_contract id id).2.2.2.2.2.2.1
    (⟨[], [], [(none, [(⟨"go"⟩, Node.State ⟨none, ⟨none⟩⟩)])]⟩ :
      IntermediateAutomaton String String)
    [(⟨"go"⟩, Node.State ⟨none, ⟨none⟩⟩)] (List.mem_singleton.mpr rfl)
    ⟨"go"⟩ ⟨none⟩ (List.mem_singleton.mpr rfl)

/-- Front-anchored sequence check on character lists. -/
def leadsWith : List Char → List Char → Bool
  | [], _ => true
  | _ :: _, [] => false
  | a :: as, b :: bs => a == b && leadsWith as bs

/-- Containment of a character sequence anywhere in another. -/
def hasSeq (n : List Char) : List Char → Bool
  | [] => leadsWith n []
  | b :: bs => leadsWith n (b :: bs) || hasSeq n bs

/-- Containment of one string in another, character-wise. -/
def strContains (needle hay : String) : Bool :=
  hasSeq needle.toList hay.toList

/-- C7: the Graphviz-style rendering of the scenario decision entry (source
S, symbol "go", branches (T, no label) and (terminal, label "timeout"))
emits exactly the edges `S -> T;` and `S -> _final_ [label=timeout];`, and
the outer symbol "go" appears in neither branch edge. -/
theorem C7_dot_decision_scenario :
    into_dot_triple id id (some "S") ⟨"go"⟩
        (Node.Decision [⟨some "T", ⟨none⟩⟩, ⟨none, ⟨some "timeout"⟩⟩])
      = some ("S -> T;" ++ "S -> _final_ [label=timeout];") ∧
    strContains "go" ("S -> T;" ++ "S -> _final_ [label=timeout];") = false := by
  constructor
  · rfl
  · rfl

/-- C8: in every renderer, a transition with absent source to a present
state `a` carrying a label override `l` is rendered as a start-pseudo-node
edge whose destination is the override (the output does not depend on the
underlying state identifier), and whose edge text is the transition
symbol. -/
theorem C8_start_edge_label_override {S T : Type} (showS : S → String) (showT : T → String)
    (a : S) (l : String) (t : Transition T) :
    into_dot_triple showS showT none t (Node.State ⟨some a, ⟨some l⟩⟩)
      = some ("_initial_ -> " ++ l ++ " [label=" ++ showT t.transition ++ "];") ∧
    into_plantuml_triple showS showT none t (Node.State ⟨some a, ⟨some l⟩⟩)
      = some ("[*] --> " ++ l ++ " : " ++ showT t.transition ++ "\n") ∧
    into_mermaid_triple showS showT none t (Node.State ⟨some a, ⟨some l⟩⟩)
      = some ("[*] --> " ++ l ++ " : " ++ showT t.transition ++ "\n") ∧
    (∀ a' : S,
      into_dot_triple showS showT none t (Node.State ⟨some a', ⟨some l⟩⟩)
        = into_dot_triple showS showT none t (Node.State ⟨some a, ⟨some l⟩⟩)) ∧
    (∀ a' : S,
      into_plantuml_triple showS showT none t (Node.State ⟨some a', ⟨some l⟩⟩)
        = into_plantuml_triple showS showT none t (Node.State ⟨some a, ⟨some l⟩⟩)) ∧
    (∀ a' : S,
      into_mermaid_triple showS showT none t (Node.State ⟨some a', ⟨some l⟩⟩)
        = into_mermaid_triple showS showT none t (Node.State ⟨some a, ⟨some l⟩⟩)) :=
  ⟨rfl, rfl, rfl, fun _ => rfl, fun _ => rfl, fun _ => rfl⟩

/-- C10: the Mermaid-style and PlantUML-style triple renderers agree on
every (source, symbol, destination) triple, and the automaton-level Mermaid
export (which, as in the source, produces each transition line through the
PlantUML triple renderer) coincides with the variant that uses the Mermaid
triple renderer, so the per-transition lines of the two formats coincide. -/
theorem C10_mermaid_plantuml_coincide {S T : Type} (showS : S → String) (showT : T → String) :
    (∀ (src : Option S) (t : Transition T) (dst : Node S),
      into_mermaid_triple showS showT src t dst = into_plantuml_triple showS showT src t dst) ∧
    (∀ a : IntermediateAutomaton S T,
      into_mermaid_automaton showS showT a
        = into_mermaid_automaton_own_triple showS showT a) := by
  have htriple : ∀ (src : Option S) (t : Transition T) (dst : Node S),
      into_mermaid_triple showS showT src t dst = into_plantuml_triple showS showT src t dst := by
    intro src t dst
    cases src with
    | some s =>
      cases dst with
      | State sn =>
        obtain ⟨os, m⟩ := sn
        cases os with
        | none => rfl
        | some st =>
          cases hm : m.transition_label with
          | none => simp [into_mermaid_triple, into_plantuml_triple, hm]
          | some l => simp [into_mermaid_triple, into_plantuml_triple, hm]
      | Decision bs =>
        show some (String.join (bs.map (mermaidDecisionLine showS s)))
          = some (String.join (bs.map (plantumlDecisionLine showS s)))
        refine congrArg (fun ls => some (String.join ls)) (List.map_congr_left ?_)
        intro sn _
        obtain ⟨os, m⟩ := sn
        cases os with
        | none =>
          cases hm : m.transition_label with
          | none => simp [mermaidDecisionLine, plantumlDecisionLine, hm]
          | some l => simp [mermaidDecisionLine, plantumlDecisionLine, hm]
        | some st =>
          cases hm : m.transition_label with
          | none => simp [mermaidDecisionLine, plantumlDecisionLine, hm]
          | some l => simp [mermaidDecisionLine, plantumlDecisionLine, hm]
    | none =>
      cases dst with
      | State sn =>
        obtain ⟨os, m⟩ := sn
        cases os with
        | none => rfl
        | some st =>
          cases hm : m.transition_label with
          | none => simp [into_mermaid_triple, into_plantuml_triple, hm]
          | some l => simp [into_mermaid_triple, into_plantuml_triple, hm]
      | Decision bs => rfl
  refine ⟨htriple, ?_⟩
  intro a
  have hf : (fun (e : Option S × List (Transition T × Node S)) =>
      (e.2.mapM (fun p => into_plantuml_triple showS showT e.1 p.1 p.2)).map
        (fun ls => String.join (ls.map (fun l => l ++ "\n"))))
      = (fun (e : Option S × List (Transition T × Node S)) =>
      (e.2.mapM (fun p => into_mermaid_triple showS showT e.1 p.1 p.2)).map
        (fun ls => String.join (ls.map (fun l => l ++ "\n")))) := by
    funext e
    have : (fun (p : Transition T × Node S) => into_plantuml_triple showS showT e.1 p.1 p.2)
        = (fun p => into_mermaid_triple showS showT e.1 p.1 p.2) := by
      funext p
      exact (htriple e.1 p.1 p.2).symm
    rw [this]
  unfold into_mermaid_automaton into_mermaid_automaton_own_triple
  rw [hf]

end Typestates
